import Mathlib

/-!
Verification of the slop-detector scoring pipeline (EQBench SLOP score).

The definitions below are a shallow embedding of the TypeScript sources:
`src/eqbench/tokenizer.ts`, `src/eqbench/scorer.ts`,
`src/eqbench/contrastDetectorHelpers.ts` and
`src/eqbench/contrastDetector.ts`.

Modelling conventions:
* JavaScript strings are `List Char`; offsets are `ℕ`.
* JavaScript numbers are `ℚ` where the code stays finite; where the code
  can produce `Infinity` / `NaN` (the benchmark normalisation clamp) we use
  the `JsNum` type, which models IEEE special values explicitly.
* The external regex engine and the external POS tagger are modelled as
  parameters: a regex contributes a list of `(index, length)` matches, the
  tagger contributes a list of `(value, tag)` tokens.
-/

namespace Slop

/-! ### Tokenizer (`src/eqbench/tokenizer.ts`) -/

/-- The apostrophe character `'` (code 39). -/
def apos : Char := Char.ofNat 39

/-- ASCII lowercasing, the fragment of `String.prototype.toLowerCase`
relevant to the `[a-z']` token extraction that follows it. -/
def lowerAsciiChar (c : Char) : Char :=
  if 'A' ≤ c ∧ c ≤ 'Z' then Char.ofNat (c.toNat + 32) else c

/-- `normalizeQuotes` (tokenizer.ts): maps Unicode single-quote variants
(and the backquote, code 96) to `'` and double-quote variants to `"`.
Each JS `replace` call substitutes single characters, so the whole
function is a character map. -/
def normalizeQuotesChar (c : Char) : Char :=
  if c = Char.ofNat 0x2018 ∨ c = Char.ofNat 0x2019 ∨ c = Char.ofNat 0x201A ∨
     c = Char.ofNat 0x201B ∨ c = Char.ofNat 0x2032 ∨ c = Char.ofNat 0x02BC ∨
     c = Char.ofNat 0xFF07 ∨ c = Char.ofNat 96 then apos
  else if c = Char.ofNat 0x201C ∨ c = Char.ofNat 0x201D ∨ c = Char.ofNat 0x201E ∨
     c = Char.ofNat 0x201F ∨ c = Char.ofNat 0x2033 ∨ c = Char.ofNat 0x00AB ∨
     c = Char.ofNat 0x00BB ∨ c = Char.ofNat 0xFF02 then Char.ofNat 34
  else c

def normalizeQuotes (s : List Char) : List Char := s.map normalizeQuotesChar

/-- Membership in the regex class `[a-z']` used by `wordsOnlyLower`. -/
def isTokenChar (c : Char) : Bool := ('a' ≤ c && c ≤ 'z') || c = apos

/-- Maximal runs of `[a-z']` characters, i.e. `txt.match(/[a-z']+/g)`.
`acc` holds the current run reversed. -/
def tokenRunsAux : List Char → List Char → List (List Char)
  | [], acc => if acc.isEmpty then [] else [acc.reverse]
  | c :: rest, acc =>
    if isTokenChar c then tokenRunsAux rest (c :: acc)
    else if acc.isEmpty then tokenRunsAux rest [] else acc.reverse :: tokenRunsAux rest []

def tokenRuns (s : List Char) : List (List Char) := tokenRunsAux s []

/-- `t.replace(/(?:^'+)|(?:'+$)/g, '')`: strip leading and trailing
apostrophes. -/
def stripApos (t : List Char) : List Char :=
  ((t.dropWhile (· = apos)).reverse.dropWhile (· = apos)).reverse

/-- `wordsOnlyLower` (tokenizer.ts). -/
def wordsOnlyLower (s : List Char) : List (List Char) :=
  (((tokenRuns (normalizeQuotes (s.map lowerAsciiChar))).map stripApos).filter
    (fun t => !t.isEmpty))

def isLowerAlpha (c : Char) : Bool := 'a' ≤ c && c ≤ 'z'

/-- The regex `^[a-z]+(?:'[a-z]+)?$` from `alphaTokens`. -/
def alphaTokOK (t : List Char) : Bool :=
  let l1 := t.takeWhile isLowerAlpha
  let rest := t.drop l1.length
  if l1.isEmpty then false
  else
    match rest with
    | [] => true
    | c :: r2 => (c = apos : Bool) && !r2.isEmpty && r2.all isLowerAlpha

/-- `alphaTokens` (tokenizer.ts). -/
def alphaTokens (toks : List (List Char)) : List (List Char) := toks.filter alphaTokOK

/-- Sentence terminators `.`, `!`, `?` of the split regex `[^.!?]*[.!?]`. -/
def sentenceTerm (c : Char) : Bool := c = '.' || c = '!' || c = '?'

/-- Scan of `sentenceSpans` (tokenizer.ts).  The JS loop repeatedly
matches `/[^.!?]*[.!?]/g`; with a sticky scan from `lastIndex` each match
runs from the previous match's end to the next terminator inclusive, and
any trailing unterminated text becomes a final span.  `start` is the
start of the current sentence, `pos` the scan position (`start ≤ pos`). -/
def spansFrom : List Char → ℕ → ℕ → List (ℕ × ℕ)
  | [], start, pos => if start < pos then [(start, pos)] else []
  | c :: cs, start, pos =>
    if sentenceTerm c then (start, pos + 1) :: spansFrom cs (pos + 1) (pos + 1)
    else spansFrom cs start (pos + 1)

/-- `sentenceSpans` (tokenizer.ts). -/
def sentenceSpans (text : List Char) : List (ℕ × ℕ) := spansFrom text 0 0

/-- `normalizeText` (tokenizer.ts): curly double quotes to `"`, curly
single quotes to `'`, em/en dash to `-`; all single-character
substitutions. -/
def normalizeTextChar (c : Char) : Char :=
  if c = Char.ofNat 0x201C ∨ c = Char.ofNat 0x201D then Char.ofNat 34
  else if c = Char.ofNat 0x2018 ∨ c = Char.ofNat 0x2019 then apos
  else if c = Char.ofNat 0x2014 ∨ c = Char.ofNat 0x2013 then '-'
  else c

def normalizeText (text : List Char) : List Char := text.map normalizeTextChar

/-! ### Lexicon scorers (`src/eqbench/scorer.ts`) -/

/-- `tokens.length || 1` — the division-by-zero fallback of
`computeEqBenchScore` (`0` is falsy in JS). -/
def nTokensOf (tokens : List (List Char)) : ℕ :=
  if tokens.length = 0 then 1 else tokens.length

/-- The word-hit loop of `computeEqBenchScore`: count tokens in the word
set. -/
def wordHitCount (tokens : List (List Char)) (wordSet : List Char → Bool) : ℕ :=
  tokens.countP wordSet

/-- The trigram text at window `i`: `${tokens[i]} ${tokens[i+1]} ${tokens[i+2]}`. -/
def mkTrigram (tokens : List (List Char)) (i : ℕ) : List Char :=
  tokens.getD i [] ++ [' '] ++ tokens.getD (i + 1) [] ++ [' '] ++ tokens.getD (i + 2) []

/-- The trigram-hit loop of `computeEqBenchScore`: guarded by
`tokens.length >= 3`, iterating `i` from `0` to `tokens.length - 3`. -/
def trigramHitCount (tokens : List (List Char)) (trigramSet : List Char → Bool) : ℕ :=
  if 3 ≤ tokens.length then
    (List.range (tokens.length - 2)).countP (fun i => trigramSet (mkTrigram tokens i))
  else 0

/-- `WORD_MULTIPLIER` / `TRIGRAM_MULTIPLIER` from `SCORING_CONSTANTS`. -/
def WORD_MULTIPLIER : ℚ := 1000

def TRIGRAM_MULTIPLIER : ℚ := 1000

/-- `wordScore = (wordHitCount / nTokens) * WORD_MULTIPLIER`. -/
def wordScore (tokens : List (List Char)) (wordSet : List Char → Bool) : ℚ :=
  (wordHitCount tokens wordSet : ℚ) / (nTokensOf tokens : ℚ) * WORD_MULTIPLIER

/-- `trigramScore = (trigramHitCount / nTokens) * TRIGRAM_MULTIPLIER`. -/
def trigramScore (tokens : List (List Char)) (trigramSet : List Char → Bool) : ℚ :=
  (trigramHitCount tokens trigramSet : ℚ) / (nTokensOf tokens : ℚ) * TRIGRAM_MULTIPLIER

/-- Spec-side definition (for claim C2): the list of 3-consecutive-token
windows, each joined by a single space. -/
def triWindows : List (List Char) → List (List Char)
  | a :: b :: c :: rest => (a ++ [' '] ++ b ++ [' '] ++ c) :: triWindows (b :: c :: rest)
  | _ => []

/-- Spec-side definition (for claim C2, following the spec's words):
`rate = matches / max(1, windowCount)`, scaled by the 1000 multiplier. -/
def specTrigramRate (tokens : List (List Char)) (trigramSet : List Char → Bool) : ℚ :=
  ((triWindows tokens).countP trigramSet : ℚ) /
    (max 1 (triWindows tokens).length : ℚ) * 1000

/-! ### JavaScript numbers with IEEE special values -/

/-- A JavaScript number: finite rational, `Infinity`, `-Infinity`, `NaN`. -/
inductive JsNum where
  | num (q : ℚ)
  | inf
  | negInf
  | nan
deriving DecidableEq

/-- `Math.min`, binary: `NaN` absorbs, otherwise the usual minimum. -/
def jsMin : JsNum → JsNum → JsNum
  | .nan, _ => .nan
  | _, .nan => .nan
  | .negInf, _ => .negInf
  | _, .negInf => .negInf
  | .inf, b => b
  | a, .inf => a
  | .num a, .num b => .num (min a b)

/-- `Math.max`, binary: `NaN` absorbs, otherwise the usual maximum. -/
def jsMax : JsNum → JsNum → JsNum
  | .nan, _ => .nan
  | _, .nan => .nan
  | .inf, _ => .inf
  | _, .inf => .inf
  | .negInf, b => b
  | a, .negInf => a
  | .num a, .num b => .num (max a b)

/-- JS addition on possibly non-finite numbers. -/
def jsAdd : JsNum → JsNum → JsNum
  | .nan, _ => .nan
  | _, .nan => .nan
  | .inf, .negInf => .nan
  | .negInf, .inf => .nan
  | .inf, _ => .inf
  | _, .inf => .inf
  | .negInf, _ => .negInf
  | _, .negInf => .negInf
  | .num a, .num b => .num (a + b)

/-- JS multiplication on possibly non-finite numbers. -/
def jsMul : JsNum → JsNum → JsNum
  | .nan, _ => .nan
  | _, .nan => .nan
  | .inf, .inf => .inf
  | .inf, .negInf => .negInf
  | .negInf, .inf => .negInf
  | .negInf, .negInf => .inf
  | .inf, .num b => if 0 < b then .inf else if b < 0 then .negInf else .nan
  | .num a, .inf => if 0 < a then .inf else if a < 0 then .negInf else .nan
  | .negInf, .num b => if 0 < b then .negInf else if b < 0 then .inf else .nan
  | .num a, .negInf => if 0 < a then .negInf else if a < 0 then .inf else .nan
  | .num a, .num b => .num (a * b)

/-- `Math.round`: round half toward `+∞`, i.e. `⌊x + 1/2⌋` on finite
values; special values pass through. -/
def jsRound : JsNum → JsNum
  | .num a => .num (⌊a + 1 / 2⌋ : ℤ)
  | x => x

/-- Division of a JS number by the literal `10` (as in `Math.round(x*10)/10`). -/
def jsDivTen : JsNum → JsNum
  | .num a => .num (a / 10)
  | x => x

/-! ### Benchmark normalisation and composite (`src/eqbench/scorer.ts`) -/

/-- `SCORING_CONSTANTS.WEIGHT_WORD`. -/
def WEIGHT_WORD : ℚ := 0.60

/-- `SCORING_CONSTANTS.WEIGHT_PATTERN`. -/
def WEIGHT_PATTERN : ℚ := 0.25

/-- `SCORING_CONSTANTS.WEIGHT_TRIGRAM`. -/
def WEIGHT_TRIGRAM : ℚ := 0.15

/-- `normalizeValue` (scorer.ts).  The raw rates fed to it are finite, so
`value`, `min`, `max` are `ℚ`; but when `max - min = 0` the JS division
`(value - min) / 0` produces `Infinity` / `-Infinity` / `NaN`, which then
flows through `Math.max(0, Math.min(1, ·))` — hence the `JsNum` result. -/
def normalizeValue (value : ℚ) (range : Option (ℚ × ℚ)) : JsNum :=
  match range with
  | none => .num 0
  | some (mn, mx) =>
    let d := mx - mn
    let q : JsNum :=
      if d = 0 then
        (if 0 < value - mn then .inf else if value - mn < 0 then .negInf else .nan)
      else .num ((value - mn) / d)
    jsMax (.num 0) (jsMin (.num 1) q)

/-- Lines 174–181 of scorer.ts: the weighted composite and the rounding
to one decimal, `Math.round(raw * 10) / 10`. -/
def compositeScore (normWords normContrast normTrigrams : JsNum) : JsNum :=
  let raw :=
    jsMul
      (jsAdd (jsAdd (jsMul normWords (.num WEIGHT_WORD))
                    (jsMul normContrast (.num WEIGHT_PATTERN)))
             (jsMul normTrigrams (.num WEIGHT_TRIGRAM)))
      (.num 100)
  jsDivTen (jsRound (jsMul raw (.num 10)))

/-- Spec-side definition (for claim C1, following the spec's words):
round to one decimal place with round-half-away-from-zero. -/
def round1AwayFromZero (x : ℚ) : ℚ :=
  if 0 ≤ x then ((⌊x * 10 + 1 / 2⌋ : ℤ) : ℚ) / 10
  else -(((⌊-(x * 10) + 1 / 2⌋ : ℤ) : ℚ) / 10)

/-- The loaded `SlopAssets`: word set, trigram set and the three
normalisation ranges (the sets are membership tests, the ranges may be
absent as in `assets.normalizationRanges[...]` lookups). -/
structure SlopAssets where
  words : List Char → Bool
  trigrams : List Char → Bool
  rangeWords : Option (ℚ × ℚ)
  rangeTrigrams : Option (ℚ × ℚ)
  rangeContrast : Option (ℚ × ℚ)

/-- The fields of `EqBenchScoreResult` the claims are about. -/
structure EqBenchScoreResult where
  slopScore : JsNum
  wordCount : ℕ
  charCount : ℕ
  wordRate : ℚ
  trigramRate : ℚ
  contrastRate : ℚ

/-- `computeEqBenchScore` (scorer.ts), with the contrast sub-pipeline's
rate passed in as a parameter (`scoreContrast` is modelled separately,
parametrised by the external regex engine's matches). -/
def computeEqBenchScore (assets : SlopAssets) (contrastRate : ℚ)
    (text : List Char) : EqBenchScoreResult :=
  let tokens := alphaTokens (wordsOnlyLower text)
  let n := nTokensOf tokens
  let ws := wordScore tokens assets.words
  let ts := trigramScore tokens assets.trigrams
  { slopScore :=
      compositeScore (normalizeValue ws assets.rangeWords)
        (normalizeValue contrastRate assets.rangeContrast)
        (normalizeValue ts assets.rangeTrigrams)
    wordCount := n
    charCount := text.length
    wordRate := ws
    trigramRate := ts
    contrastRate := contrastRate }

/-! ### Supporting lemmas for the lexicon scorers -/

theorem mkTrigram_cons_succ (a : List Char) (l : List (List Char)) (i : ℕ) :
    mkTrigram (a :: l) (i + 1) = mkTrigram l i := by
  simp [mkTrigram]

theorem triWindows_eq :
    ∀ tokens : List (List Char),
      triWindows tokens = (List.range (tokens.length - 2)).map (mkTrigram tokens)
  | [] => rfl
  | [_] => rfl
  | [_, _] => rfl
  | a :: b :: c :: rest => by
    rw [triWindows, triWindows_eq (b :: c :: rest)]
    simp only [List.length_cons]
    have h1 : rest.length + 1 + 1 + 1 - 2 = rest.length + 1 := by omega
    have h2 : rest.length + 1 + 1 - 2 = rest.length := by omega
    rw [h1, h2, List.range_succ_eq_map, List.map_cons, List.map_map]
    refine congrArg₂ _ ?_ ?_
    · simp [mkTrigram]
    · refine List.map_congr_left fun i _ => ?_
      simp [Function.comp, mkTrigram_cons_succ]

theorem trigramHitCount_eq (tokens : List (List Char)) (S : List Char → Bool) :
    trigramHitCount tokens S = (triWindows tokens).countP S := by
  rw [trigramHitCount, triWindows_eq, List.countP_map]
  by_cases h : 3 ≤ tokens.length
  · rw [if_pos h]
    rfl
  · rw [if_neg h]
    have : tokens.length - 2 = 0 := by omega
    simp [this]

theorem triWindows_length (tokens : List (List Char)) :
    (triWindows tokens).length = tokens.length - 2 := by
  rw [triWindows_eq]
  simp

theorem nTokensOf_eq_max (tokens : List (List Char)) :
    nTokensOf tokens = max 1 tokens.length := by
  rw [nTokensOf]
  split <;> omega

/-! ### Claims C1, C2, C3, C7, C10 -/

/-- C1: for normalized sub-scores `w` (words), `c` (contrast), `t`
(trigrams) in `[0,1]`, the composite slop score of `computeEqBenchScore`
equals `(w × 0.60 + c × 0.25 + t × 0.15) × 100` rounded to one decimal
place with round-half-away-from-zero, and the three weights sum to
exactly `1`. -/
theorem c1_composite_score :
    (WEIGHT_WORD + WEIGHT_PATTERN + WEIGHT_TRIGRAM = 1) ∧
    ∀ w c t : ℚ, 0 ≤ w → w ≤ 1 → 0 ≤ c → c ≤ 1 → 0 ≤ t → t ≤ 1 →
      compositeScore (.num w) (.num c) (.num t) =
        .num (round1AwayFromZero ((w * 0.60 + c * 0.25 + t * 0.15) * 100)) := by
  constructor
  · norm_num [WEIGHT_WORD, WEIGHT_PATTERN, WEIGHT_TRIGRAM]
  · intro w c t hw0 hw1 hc0 hc1 ht0 ht1
    have hraw : (0 : ℚ) ≤ (w * 0.60 + c * 0.25 + t * 0.15) * 100 := by
      have h1 : (0 : ℚ) ≤ w * 0.60 := by nlinarith
      have h2 : (0 : ℚ) ≤ c * 0.25 := by nlinarith
      have h3 : (0 : ℚ) ≤ t * 0.15 := by nlinarith
      nlinarith
    simp only [compositeScore, jsMul, jsAdd, jsRound, jsDivTen,
      WEIGHT_WORD, WEIGHT_PATTERN, WEIGHT_TRIGRAM,
      round1AwayFromZero, if_pos hraw]

/-- Witness for C1 at `w = c = t = 1/2`. -/
theorem c1_composite_score_witness :
    ((0 : ℚ) ≤ 1 / 2 ∧ (1 / 2 : ℚ) ≤ 1) ∧
    compositeScore (.num (1 / 2)) (.num (1 / 2)) (.num (1 / 2)) =
      .num (round1AwayFromZero
        ((1 / 2 * 0.60 + 1 / 2 * 0.25 + 1 / 2 * 0.15) * 100)) :=
  ⟨⟨by norm_num, by norm_num⟩,
   c1_composite_score.2 (1 / 2) (1 / 2) (1 / 2) (by norm_num) (by norm_num)
     (by norm_num) (by norm_num) (by norm_num) (by norm_num)⟩

/-- C2 counterexample: for the token sequence `["a","b","c"]` and a
trigram set containing exactly `"a b c"`, the code's trigram rate is
`1000/3` (it divides by the token count `3`), while the claimed formula
`matches / max(1, windowCount) × 1000` gives `1000` (one window, one
match). -/
theorem c2_trigram_rate_counterexample :
    trigramScore [['a'], ['b'], ['c']] (fun t => t == ['a', ' ', 'b', ' ', 'c'])
        = 1000 / 3 ∧
    specTrigramRate [['a'], ['b'], ['c']] (fun t => t == ['a', ' ', 'b', ' ', 'c'])
        = 1000 ∧
    (1000 / 3 : ℚ) ≠ 1000 := by
  refine ⟨?_, ?_, by norm_num⟩
  · have h : trigramHitCount [['a'], ['b'], ['c']]
        (fun t => t == ['a', ' ', 'b', ' ', 'c']) = 1 := by decide
    simp [trigramScore, h, nTokensOf, TRIGRAM_MULTIPLIER]
    norm_num
  · have h : (triWindows [['a'], ['b'], ['c']]).countP
        (fun t => t == ['a', ' ', 'b', ' ', 'c']) = 1 := by decide
    have hl : (triWindows [['a'], ['b'], ['c']]).length = 1 := by decide
    simp [specTrigramRate, h, hl]

/-- C2 (amended): the trigram rate equals the count of 3-consecutive-token
windows (joined by a single space) that are members of the trigram set,
divided by `max(1, tokenCount)` — the token count, not the window count —
scaled by the fixed multiplier 1000.  The window count itself is
`tokenCount - 2`. -/
theorem c2_trigram_rate_amended :
    ∀ (tokens : List (List Char)) (S : List Char → Bool),
      trigramScore tokens S =
        ((triWindows tokens).countP S : ℚ) / (max 1 tokens.length : ℚ) * 1000 ∧
      (triWindows tokens).length = tokens.length - 2 := by
  intro tokens S
  refine ⟨?_, triWindows_length tokens⟩
  rw [trigramScore, trigramHitCount_eq, nTokensOf_eq_max, TRIGRAM_MULTIPLIER]
  push_cast
  ring

/-- C3 counterexample: for the zero-span range `(5,5)` and input `7`, the
code does perform the JS division `(7-5)/0 = Infinity`, and
`Math.max(0, Math.min(1, Infinity))` yields `1`, not the claimed `0`. -/
theorem c3_normalize_zero_span_counterexample :
    (5 : ℚ) = 5 ∧ normalizeValue 7 (some (5, 5)) ≠ JsNum.num 0 := by
  refine ⟨rfl, ?_⟩
  have h : normalizeValue 7 (some (5, 5)) = JsNum.num 1 := by
    norm_num [normalizeValue, jsMin, jsMax]
  rw [h]
  simp

/-- C3 (amended): `normalizeValue` only short-circuits to 0 when the range
is absent.  On a zero-span range (`min = max`) the division by zero flows
through the clamp: the result is `1` for input above `min`, `0` below,
and `NaN` at exactly `min`.  On a non-degenerate range it returns
`clamp((value - min) / (max - min), 0, 1)`. -/
theorem c3_normalize_zero_span_amended :
    ∀ v mn mx : ℚ,
      (mn = mx → normalizeValue v (some (mn, mx)) =
        (if mn < v then JsNum.num 1 else if v < mn then JsNum.num 0 else JsNum.nan)) ∧
      (mn ≠ mx → normalizeValue v (some (mn, mx)) =
        JsNum.num (max 0 (min 1 ((v - mn) / (mx - mn))))) := by
  intro v mn mx
  constructor
  · intro h
    subst h
    rcases lt_trichotomy mn v with hv | hv | hv
    · rw [if_pos hv]
      have h1 : (0 : ℚ) < v - mn := by linarith
      simp [normalizeValue, jsMin, jsMax, h1]
    · subst hv
      simp [normalizeValue, jsMin, jsMax]
    · rw [if_neg (by linarith), if_pos hv]
      have h1 : ¬ (0 : ℚ) < v - mn := by linarith
      have h2 : v - mn < 0 := by linarith
      simp [normalizeValue, jsMin, jsMax, h1, h2]
  · intro h
    have hd : mx - mn ≠ 0 := fun hc => h (by linarith)
    simp [normalizeValue, jsMin, jsMax, hd]

/-- Witness for C3 (amended) at `(v, mn, mx) = (7, 5, 5)` and `(7, 5, 9)`. -/
theorem c3_normalize_zero_span_amended_witness :
    ((5 : ℚ) = 5 ∧ normalizeValue 7 (some (5, 5)) =
      (if (5 : ℚ) < 7 then JsNum.num 1 else if (7 : ℚ) < 5 then JsNum.num 0 else JsNum.nan)) ∧
    ((5 : ℚ) ≠ 9 ∧ normalizeValue 7 (some (5, 9)) =
      JsNum.num (max 0 (min 1 ((7 - 5) / (9 - 5))))) :=
  ⟨⟨rfl, (c3_normalize_zero_span_amended 7 5 5).1 rfl⟩,
   ⟨by norm_num, (c3_normalize_zero_span_amended 7 5 9).2 (by norm_num)⟩⟩

/-- C7: word and trigram scoring never fail on valid input: a token
sequence of length `< 3` gets trigram rate `0`; an empty token sequence
gets word rate `0` and trigram rate `0`; the divisor `nTokens` is always
at least `1` (so no division by zero / `NaN` can arise). -/
theorem c7_lexicon_scoring_total :
    ∀ (tokens : List (List Char)) (S T : List Char → Bool),
      (tokens.length < 3 → trigramScore tokens T = 0) ∧
      (tokens = [] → wordScore tokens S = 0 ∧ trigramScore tokens T = 0) ∧
      1 ≤ nTokensOf tokens ∧ (nTokensOf tokens : ℚ) ≠ 0 := by
  intro tokens S T
  have hn : 1 ≤ nTokensOf tokens := by rw [nTokensOf]; split <;> omega
  refine ⟨?_, ?_, hn, ?_⟩
  · intro h
    have hc : trigramHitCount tokens T = 0 := by
      rw [trigramHitCount, if_neg (by omega)]
    simp [trigramScore, hc]
  · intro h
    subst h
    constructor
    · simp [wordScore, wordHitCount]
    · have hc : trigramHitCount [] T = 0 := by rw [trigramHitCount]; simp
      simp [trigramScore, hc]
  · have : (0 : ℚ) < (nTokensOf tokens : ℚ) := by exact_mod_cast hn
    exact ne_of_gt this

/-- Witness for C7 at the empty token sequence. -/
theorem c7_lexicon_scoring_total_witness :
    (([] : List (List Char)).length < 3 ∧ ([] : List (List Char)) = []) ∧
    trigramScore [] (fun _ => false) = 0 ∧
    wordScore [] (fun _ => false) = 0 ∧
    1 ≤ nTokensOf [] :=
  ⟨⟨by decide, rfl⟩,
   (c7_lexicon_scoring_total [] (fun _ => false) (fun _ => false)).1 (by decide),
   ((c7_lexicon_scoring_total [] (fun _ => false) (fun _ => false)).2.1 rfl).1,
   (c7_lexicon_scoring_total [] (fun _ => false) (fun _ => false)).2.2.1⟩

/-- C10: when the filtered token sequence is empty, the returned
`wordCount` is the division-by-zero fallback `max(1, tokenCount) = 1`,
not `0`. -/
theorem c10_empty_wordcount :
    ∀ (assets : SlopAssets) (contrastRate : ℚ) (text : List Char),
      alphaTokens (wordsOnlyLower text) = [] →
      (computeEqBenchScore assets contrastRate text).wordCount = 1 := by
  intro assets contrastRate text h
  simp [computeEqBenchScore, h, nTokensOf]

/-- Witness for C10 on the text `"7"`, which tokenizes to no tokens. -/
theorem c10_empty_wordcount_witness :
    alphaTokens (wordsOnlyLower ['7']) = [] ∧
    (computeEqBenchScore ⟨fun _ => false, fun _ => false, none, none, none⟩
      0 ['7']).wordCount = 1 :=
  ⟨by decide,
   c10_empty_wordcount ⟨fun _ => false, fun _ => false, none, none, none⟩
     0 ['7'] (by decide)⟩

/-! ### Sentence-span coverage (claim C4) -/

/-- `chainCover a b l`: the spans in `l` tile the interval `[a, b)`
contiguously, each span nonempty. -/
def chainCover : ℕ → ℕ → List (ℕ × ℕ) → Prop
  | a, b, [] => a = b
  | a, b, s :: rest => s.1 = a ∧ a < s.2 ∧ chainCover s.2 b rest

theorem spansFrom_chainCover :
    ∀ (cs : List Char) (start pos : ℕ), start ≤ pos →
      chainCover start (pos + cs.length) (spansFrom cs start pos)
  | [], start, pos, h => by
    rw [spansFrom]
    by_cases hlt : start < pos
    · rw [if_pos hlt]
      exact ⟨rfl, by omega, by simp [chainCover]⟩
    · rw [if_neg hlt]
      have heq : start = pos := by omega
      subst heq
      simp [chainCover]
  | c :: cs, start, pos, h => by
    rw [spansFrom]
    by_cases hterm : sentenceTerm c
    · rw [if_pos hterm]
      refine ⟨rfl, by omega, ?_⟩
      have := spansFrom_chainCover cs (pos + 1) (pos + 1) (le_refl _)
      simpa [List.length_cons, Nat.add_comm, Nat.add_assoc, Nat.add_left_comm] using this
    · rw [if_neg hterm]
      have := spansFrom_chainCover cs start (pos + 1) (by omega)
      simpa [List.length_cons, Nat.add_comm, Nat.add_assoc, Nat.add_left_comm] using this

theorem chainCover_le : ∀ {a b : ℕ} {l : List (ℕ × ℕ)}, chainCover a b l → a ≤ b
  | _, _, [], h => le_of_eq h
  | _, _, _ :: _, ⟨_, h2, h3⟩ => le_trans (by omega) (chainCover_le h3)

theorem chainCover_mem_bounds :
    ∀ {a b : ℕ} {l : List (ℕ × ℕ)}, chainCover a b l →
      ∀ s ∈ l, a ≤ s.1 ∧ s.1 < s.2 ∧ s.2 ≤ b
  | _, _, [], _, s, hs => absurd hs (List.not_mem_nil s)
  | a, b, t :: rest, ⟨h1, h2, h3⟩, s, hs => by
    rcases List.mem_cons.1 hs with rfl | hs
    · exact ⟨le_of_eq h1.symm, by omega, chainCover_le h3⟩
    · have := chainCover_mem_bounds h3 s hs
      exact ⟨by omega, this.2.1, this.2.2⟩

theorem chainCover_pairwise :
    ∀ {a b : ℕ} {l : List (ℕ × ℕ)}, chainCover a b l →
      List.Pairwise (fun x y => x.2 ≤ y.1) l
  | _, _, [], _ => List.Pairwise.nil
  | _, _, _ :: _, ⟨_, _, h3⟩ =>
    List.Pairwise.cons (fun s hs => (chainCover_mem_bounds h3 s hs).1)
      (chainCover_pairwise h3)

theorem chainCover_cover :
    ∀ {a b : ℕ} {l : List (ℕ × ℕ)}, chainCover a b l →
      ∀ k, (a ≤ k ∧ k < b) ↔ ∃ s ∈ l, s.1 ≤ k ∧ k < s.2
  | a, _, [], h, k => by
    subst h
    simp
  | a, b, t :: rest, ⟨h1, h2, h3⟩, k => by
    have ih := chainCover_cover h3 k
    have hb := chainCover_le h3
    constructor
    · rintro ⟨hak, hkb⟩
      by_cases hk : k < t.2
      · exact ⟨t, List.mem_cons_self t rest, by omega, hk⟩
      · obtain ⟨s, hs, hle⟩ := ih.1 ⟨by omega, hkb⟩
        exact ⟨s, List.mem_cons_of_mem t hs, hle⟩
    · rintro ⟨s, hs, hsk, hks⟩
      rcases List.mem_cons.1 hs with rfl | hs
      · omega
      · have hsb := chainCover_mem_bounds h3 s hs
        have := ih.2 ⟨s, hs, hsk, hks⟩
        omega

theorem chainCover_last :
    ∀ {a b : ℕ} {l : List (ℕ × ℕ)}, chainCover a b l → l ≠ [] →
      ∃ s, l.getLast? = some s ∧ s.2 = b
  | _, _, [], h, hne => absurd rfl hne
  | a, b, t :: rest, ⟨h1, h2, h3⟩, _ => by
    rcases rest with _ | ⟨u, rest'⟩
    · exact ⟨t, rfl, h3⟩
    · obtain ⟨s, hs, hsb⟩ := chainCover_last h3 (by simp)
      exact ⟨s, by rw [List.getLast?_cons_cons]; exact hs, hsb⟩

theorem sentenceSpans_chainCover (text : List Char) :
    chainCover 0 text.length (sentenceSpans text) := by
  simpa using spansFrom_chainCover text 0 0 (le_refl 0)

/-- C4: for every input, sentence spans are sorted ascending and pairwise
non-overlapping, each span is nonempty, their union covers exactly
`[0, text.length)`, and the final span (present whenever the text is
nonempty, in particular when trailing unterminated text remains) ends at
`text.length`. -/
theorem c4_sentence_spans :
    ∀ text : List Char,
      List.Pairwise (fun x y => x.2 ≤ y.1) (sentenceSpans text) ∧
      (∀ s ∈ sentenceSpans text, s.1 < s.2) ∧
      (∀ k, k < text.length ↔ ∃ s ∈ sentenceSpans text, s.1 ≤ k ∧ k < s.2) ∧
      (text ≠ [] → ∃ s, (sentenceSpans text).getLast? = some s ∧ s.2 = text.length) := by
  intro text
  have hcc := sentenceSpans_chainCover text
  refine ⟨chainCover_pairwise hcc,
          fun s hs => (chainCover_mem_bounds hcc s hs).2.1,
          fun k => ?_, fun hne => ?_⟩
  · have := chainCover_cover hcc k
    constructor
    · intro hk
      exact (this.1 ⟨Nat.zero_le k, hk⟩)
    · intro hex
      exact (this.2 hex).2
  · apply chainCover_last hcc
    intro hnil
    have : (0 : ℕ) = text.length := by
      have := hcc
      rw [hnil] at this
      exact this
    exact hne (List.eq_nil_of_length_eq_zero this.symm)

/-! ### Contrast detector helpers (`contrastDetectorHelpers.ts`) -/

/-- The JS binary-search loop body shared by `bisectRight`/`bisectLeft`,
with a fuel argument (`hi - lo` shrinks every iteration, so
`arr.length + 1` fuel is enough for the initial call, making the fuelled
version agree with the `while (lo < hi)` loop).  `cmp` is the probe:
`arr[mid] ?? 0` compared against `val`. -/
def bisectAux (cmp : ℕ → Bool) : ℕ → ℕ → ℕ → ℕ
  | 0, lo, _ => lo
  | fuel + 1, lo, hi =>
    if lo < hi then
      let mid := (lo + hi) / 2
      if cmp mid then bisectAux cmp fuel (mid + 1) hi
      else bisectAux cmp fuel lo mid
    else lo

/-- `bisectRight` (contrastDetectorHelpers.ts): first index whose element
exceeds `val`. -/
def bisectRight (arr : List ℕ) (val : ℕ) : ℕ :=
  bisectAux (fun mid => arr.getD mid 0 ≤ val) (arr.length + 1) 0 arr.length

/-- `bisectLeft` (contrastDetectorHelpers.ts). -/
def bisectLeft (arr : List ℕ) (val : ℕ) : ℕ :=
  bisectAux (fun mid => arr.getD mid 0 < val) (arr.length + 1) 0 arr.length

/-- `coveredSentenceRange` (contrastDetectorHelpers.ts).  The JS `hi`
may be `-1` (from `bisectLeft(...) - 1`), hence the `ℤ` intermediate. -/
def coveredSentenceRange (spans : List (ℕ × ℕ)) (s e : ℕ) : Option (ℕ × ℕ) :=
  if spans.isEmpty ∨ e ≤ s then none
  else
    let starts := spans.map Prod.fst
    let ends := spans.map Prod.snd
    let lo := bisectRight ends s
    let hi : ℤ := (bisectLeft starts e : ℤ) - 1
    if spans.length ≤ lo ∨ hi < 0 ∨ (lo : ℤ) > hi then none
    else some (lo, hi.toNat)

/-- A `StreamPiece` `[streamStart, streamEnd, rawStart, rawEnd]`
(the source uses a 4-tuple). -/
structure StreamPiece where
  streamStart : ℕ
  streamEnd : ℕ
  rawStart : ℕ
  rawEnd : ℕ
deriving DecidableEq

/-- `mapStreamToRaw` (contrastDetectorHelpers.ts).  When the guard
passes, `pieces.slice(i, j+1)` is nonempty, so the `Math.min`/`Math.max`
fold over it is over a nonempty list (the `[]` branch is unreachable). -/
def mapStreamToRaw (pieces : List StreamPiece) (ss se : ℕ) : Option (ℕ × ℕ) :=
  let starts := pieces.map StreamPiece.streamStart
  let ends := pieces.map StreamPiece.streamEnd
  let i := bisectRight ends ss
  let j : ℤ := (bisectLeft starts se : ℤ) - 1
  if pieces.length ≤ i ∨ j < (i : ℤ) then none
  else
    match (pieces.drop i).take (j.toNat + 1 - i) with
    | [] => none
    | p :: ps =>
      some (ps.foldl (fun m q => min m q.rawStart) p.rawStart,
            ps.foldl (fun m q => max m q.rawEnd) p.rawEnd)

/-- The `Interval` record of the contrast detector (a regex candidate).
`match_text` is the (trimmed) matched text as a character list. -/
structure Interval where
  lo : ℕ
  hi : ℕ
  raw_start : ℕ
  raw_end : ℕ
  pattern_name : String
  match_text : List Char
deriving DecidableEq

/-- `text.substring(a, b)` (JS `String.prototype.substring`: clamps and
swaps its arguments when `a > b`). -/
def jsSubstring (s : List Char) (a b : ℕ) : List Char :=
  if a ≤ b then (s.drop a).take (b - a) else (s.drop b).take (a - b)

/-- The whitespace characters stripped by `String.prototype.trim`
(the ASCII ones; the code's inputs only contain these). -/
def isJsWhitespace (c : Char) : Bool :=
  c = ' ' || c = Char.ofNat 9 || c = Char.ofNat 10 || c = Char.ofNat 13 ||
  c = Char.ofNat 11 || c = Char.ofNat 12

/-- `String.prototype.trim`. -/
def jsTrim (s : List Char) : List Char :=
  ((s.dropWhile isJsWhitespace).reverse.dropWhile isJsWhitespace).reverse

/-- `collectStage1Candidates` (contrastDetectorHelpers.ts), parametrised
by the external regex engine's output: for each named pattern, the list
of its matches as `(index, length)` pairs.  A match whose sentence range
cannot be resolved is skipped. -/
def collectStage1Candidates (tNorm : List Char) (spans : List (ℕ × ℕ))
    (regexMatches : List (String × List (ℕ × ℕ))) (pfx : String) : List Interval :=
  regexMatches.flatMap fun pr =>
    pr.2.filterMap fun m =>
      match coveredSentenceRange spans m.1 (m.1 + m.2) with
      | none => none
      | some (lo, hi) =>
        some { lo := lo, hi := hi, raw_start := m.1, raw_end := m.1 + m.2,
               pattern_name := pfx ++ pr.1,
               match_text := jsTrim (jsSubstring tNorm m.1 (m.1 + m.2)) }

/-- `collectStage2Candidates` (contrastDetectorHelpers.ts): matches are
found in stream space, mapped back to raw offsets via the piece table;
unmappable matches and matches outside every sentence are skipped. -/
def collectStage2Candidates (tNorm : List Char) (spans : List (ℕ × ℕ))
    (regexMatches : List (String × List (ℕ × ℕ))) (pieces : List StreamPiece)
    (pfx : String) : List Interval :=
  regexMatches.flatMap fun pr =>
    pr.2.filterMap fun m =>
      match mapStreamToRaw pieces m.1 (m.1 + m.2) with
      | none => none
      | some (rs, re) =>
        match coveredSentenceRange spans rs re with
        | none => none
        | some (lo, hi) =>
          some { lo := lo, hi := hi, raw_start := rs, raw_end := re,
                 pattern_name := pfx ++ pr.1,
                 match_text := jsTrim (jsSubstring tNorm rs re) }

/-! ### Interval merging (`contrastDetector.ts`) -/

/-- The JS sort comparator of `mergeIntervals` as a relation:
lexicographic on `(lo, hi, raw_start)`. -/
def intervalLE (a b : Interval) : Prop :=
  a.lo < b.lo ∨ (a.lo = b.lo ∧ (a.hi < b.hi ∨ (a.hi = b.hi ∧ a.raw_start ≤ b.raw_start)))

instance : DecidableRel intervalLE := fun a b => by
  unfold intervalLE
  infer_instance

instance : IsTotal Interval intervalLE :=
  ⟨fun a b => by unfold intervalLE; omega⟩

instance : IsTrans Interval intervalLE :=
  ⟨fun a b c hab hbc => by
    unfold intervalLE at *
    omega⟩

theorem intervalLE_refl (a : Interval) : intervalLE a a := by
  unfold intervalLE
  omega

theorem intervalLE_lo {a b : Interval} (h : intervalLE a b) : a.lo ≤ b.lo := by
  unfold intervalLE at h
  omega

/-- `items.slice().sort(comparator)`: JS `Array.prototype.sort` is
required to be stable, so any stable sort by the same total preorder
produces the same list; we use insertion sort. -/
def sortIntervals (items : List Interval) : List Interval :=
  List.insertionSort intervalLE items

/-- One merge step of the accumulator (`cur.hi = max(cur.hi, it.hi)`,
`cur.raw_end = max(cur.raw_end, it.raw_end)`; `lo`, `raw_start`,
`pattern_name`, `match_text` keep the seed's values). -/
def extendInterval (cur it : Interval) : Interval :=
  { cur with hi := max cur.hi it.hi, raw_end := max cur.raw_end it.raw_end }

/-- The merging walk of `mergeIntervals`: a candidate joins the current
accumulator exactly when `it.lo <= cur.hi`; otherwise the accumulator is
pushed and the candidate seeds a new one. -/
def mergeLoop : Interval → List Interval → List Interval
  | cur, [] => [cur]
  | cur, it :: rest =>
    if it.lo ≤ cur.hi then mergeLoop (extendInterval cur it) rest
    else cur :: mergeLoop it rest

/-- `mergeIntervals` (contrastDetector.ts). -/
def mergeIntervals (items : List Interval) : List Interval :=
  match sortIntervals items with
  | [] => []
  | first :: rest => mergeLoop first rest

/-- The `ContrastMatch` record. -/
structure ContrastMatch where
  sentence : List Char
  pattern_name : String
  match_text : List Char
  sentence_count : ℕ
deriving DecidableEq

/-- The result-building loop at the end of `extractContrastMatches`:
each merged interval yields one `ContrastMatch` whose `sentence` is the
trimmed text from the start of its first covered sentence span to the
end of its last covered sentence span. -/
def buildResults (tNorm : List Char) (spans : List (ℕ × ℕ))
    (merged : List Interval) : List ContrastMatch :=
  merged.map fun it =>
    { sentence := jsTrim (jsSubstring tNorm (spans.getD it.lo (0, 0)).1
        (spans.getD it.hi (0, 0)).2)
      pattern_name := it.pattern_name
      match_text := it.match_text
      sentence_count := it.hi - it.lo + 1 }

/-- The merge-and-build tail of `extractContrastMatches`, as a function
of the collected candidates. -/
def contrastFromCandidates (tNorm : List Char) (spans : List (ℕ × ℕ))
    (candidates : List Interval) : List ContrastMatch :=
  buildResults tNorm spans (mergeIntervals candidates)

/-- `extractContrastMatches` (contrastDetector.ts), parametrised by the
regex engines' match lists (`s1` on the normalized text, `s2` on the
POS-substituted stream) and by the stream piece table. -/
def extractContrastMatches (text : List Char)
    (s1 s2 : List (String × List (ℕ × ℕ))) (pieces : List StreamPiece) :
    List ContrastMatch :=
  let tNorm := normalizeText text
  let spans := sentenceSpans tNorm
  let candidates := collectStage1Candidates tNorm spans s1 "S1_" ++
    collectStage2Candidates tNorm spans s2 pieces "S2_"
  buildResults tNorm spans (mergeIntervals candidates)

/-- The `ContrastScoreResult` record. -/
structure ContrastScoreResult where
  hits : ℕ
  chars : ℕ
  rate_per_1k : ℚ
  /-- the source field `matches` (that name is reserved in Lean) -/
  matchesList : List ContrastMatch
deriving DecidableEq

/-- `scoreContrast` (contrastDetector.ts). -/
def scoreContrast (text : List Char) (s1 s2 : List (String × List (ℕ × ℕ)))
    (pieces : List StreamPiece) : ContrastScoreResult :=
  let ms := extractContrastMatches text s1 s2 pieces
  { hits := ms.length
    chars := text.length
    rate_per_1k := if 0 < text.length then (ms.length : ℚ) * 1000 / (text.length : ℚ) else 0
    matchesList := ms }

/-! ### Merge-walk verification (claims C5, C6) -/

/-- Sentence-range containment: `o`'s sentence range contains `x`'s. -/
abbrev contI (o x : Interval) : Prop := o.lo ≤ x.lo ∧ x.hi ≤ o.hi

/-- Strict separation of sentence ranges. -/
abbrev sepI (a b : Interval) : Prop := a.hi < b.lo

theorem mergeLoop_cons_merge (s0 it : Interval) (H R : ℕ) (rest : List Interval)
    (h : it.lo ≤ H) :
    mergeLoop ⟨s0.lo, H, s0.raw_start, R, s0.pattern_name, s0.match_text⟩ (it :: rest) =
      mergeLoop ⟨s0.lo, max H it.hi, s0.raw_start, max R it.raw_end,
        s0.pattern_name, s0.match_text⟩ rest := by
  rw [mergeLoop]
  split
  · rfl
  · next hfalse => exact absurd h hfalse

theorem mergeLoop_cons_push (s0 it : Interval) (H R : ℕ) (rest : List Interval)
    (h : ¬ it.lo ≤ H) :
    mergeLoop ⟨s0.lo, H, s0.raw_start, R, s0.pattern_name, s0.match_text⟩ (it :: rest) =
      ⟨s0.lo, H, s0.raw_start, R, s0.pattern_name, s0.match_text⟩ :: mergeLoop it rest := by
  rw [mergeLoop]
  split
  · next htrue => exact absurd htrue h
  · rfl

/-- The main invariant of the merge walk, by induction along the sorted
candidate list.  `s0` is the seed of the current accumulator, `H`/`R` its
extended `hi`/`raw_end`. -/
theorem mergeLoop_spec (l : List Interval) :
    ∀ (s0 : Interval) (H R : ℕ),
      List.Pairwise intervalLE (s0 :: l) →
      s0.lo ≤ s0.hi → s0.hi ≤ H →
      (∀ x ∈ l, x.lo ≤ x.hi) →
      (∀ o ∈ mergeLoop ⟨s0.lo, H, s0.raw_start, R, s0.pattern_name, s0.match_text⟩ l,
          s0.lo ≤ o.lo ∧ o.lo ≤ o.hi) ∧
      List.Pairwise sepI
        (mergeLoop ⟨s0.lo, H, s0.raw_start, R, s0.pattern_name, s0.match_text⟩ l) ∧
      (∀ x ∈ s0 :: l,
          ∃ o ∈ mergeLoop ⟨s0.lo, H, s0.raw_start, R, s0.pattern_name, s0.match_text⟩ l,
            contI o x) ∧
      (∃ h₀ M',
          mergeLoop ⟨s0.lo, H, s0.raw_start, R, s0.pattern_name, s0.match_text⟩ l =
            h₀ :: M' ∧
          h₀.lo = s0.lo ∧ h₀.raw_start = s0.raw_start ∧
          h₀.pattern_name = s0.pattern_name ∧ h₀.match_text = s0.match_text ∧
          H ≤ h₀.hi) ∧
      (∀ o ∈ mergeLoop ⟨s0.lo, H, s0.raw_start, R, s0.pattern_name, s0.match_text⟩ l,
          ∃ seed ∈ s0 :: l, o.lo = seed.lo ∧ seed.hi ≤ o.hi ∧
            o.raw_start = seed.raw_start ∧ o.pattern_name = seed.pattern_name ∧
            o.match_text = seed.match_text ∧
            ∀ y ∈ s0 :: l, contI o y → intervalLE seed y) := by
  induction l with
  | nil =>
    intro s0 H R _ hwf0 hH _
    simp only [mergeLoop]
    refine ⟨?_, ?_, ?_, ?_, ?_⟩
    · intro o ho
      rw [List.mem_singleton] at ho
      subst ho
      exact ⟨le_refl _, le_trans hwf0 hH⟩
    · exact List.pairwise_singleton _ _
    · intro x hx
      rw [List.mem_singleton] at hx
      rw [hx]
      exact ⟨_, List.mem_singleton_self _, le_refl _, hH⟩
    · exact ⟨_, [], rfl, rfl, rfl, rfl, rfl, le_refl _⟩
    · intro o ho
      rw [List.mem_singleton] at ho
      subst ho
      refine ⟨s0, List.mem_singleton_self _, rfl, hH, rfl, rfl, rfl, ?_⟩
      intro y hy _
      rw [List.mem_singleton] at hy
      rw [hy]
      exact intervalLE_refl s0
  | cons it rest ih =>
    intro s0 H R hp hwf0 hH hwfl
    have hps0it : intervalLE s0 it := (List.pairwise_cons.mp hp).1 it (List.mem_cons_self it rest)
    have hlos0it : s0.lo ≤ it.lo := intervalLE_lo hps0it
    have hwf_it : it.lo ≤ it.hi := hwfl it (List.mem_cons_self it rest)
    have hwfl' : ∀ x ∈ rest, x.lo ≤ x.hi := fun x hx => hwfl x (List.mem_cons_of_mem it hx)
    by_cases hcase : it.lo ≤ H
    · -- the candidate joins the current accumulator
      rw [mergeLoop_cons_merge s0 it H R rest hcase]
      have hp' : List.Pairwise intervalLE (s0 :: rest) :=
        List.Pairwise.sublist
          (List.cons_sublist_cons.mpr (List.sublist_cons_self it rest)) hp
      obtain ⟨ih1, ih2, ih3, ⟨h₀, M', hM, h₀lo, h₀rs, h₀pn, h₀mt, h₀hi⟩, ih5⟩ :=
        ih s0 (max H it.hi) (max R it.raw_end) hp' hwf0
          (le_trans hH (le_max_left _ _)) hwfl'
      have hith₀ : it.hi ≤ h₀.hi := le_trans (le_max_right H it.hi) h₀hi
      have hHh₀ : H ≤ h₀.hi := le_trans (le_max_left H it.hi) h₀hi
      refine ⟨ih1, ih2, ?_, ⟨h₀, M', hM, h₀lo, h₀rs, h₀pn, h₀mt, hHh₀⟩, ?_⟩
      · intro x hx
        rcases List.mem_cons.mp hx with rfl | hx'
        · exact ih3 x (List.mem_cons_self _ _)
        · rcases List.mem_cons.mp hx' with rfl | hx''
          · refine ⟨h₀, by rw [hM]; exact List.mem_cons_self _ _, ?_, hith₀⟩
            rw [h₀lo]
            exact hlos0it
          · exact ih3 x (List.mem_cons_of_mem _ hx'')
      · intro o ho
        obtain ⟨seed, hseedmem, hslo, hshi, hsrs, hspn, hsmt, hmin⟩ := ih5 o ho
        refine ⟨seed, ?_, hslo, hshi, hsrs, hspn, hsmt, ?_⟩
        · rcases List.mem_cons.mp hseedmem with rfl | h'
          · exact List.mem_cons_self _ _
          · exact List.mem_cons_of_mem _ (List.mem_cons_of_mem _ h')
        · intro y hy hcont
          rcases List.mem_cons.mp hy with rfl | hy'
          · exact hmin y (List.mem_cons_self _ _) hcont
          · rcases List.mem_cons.mp hy' with rfl | hy''
            · -- `y = it`: if `o` is the head accumulator, go through `s0`;
              -- a later accumulator cannot contain `it` at all.
              rw [hM] at ho
              rcases List.mem_cons.mp ho with rfl | hoM'
              · have hco : contI o s0 := by
                  constructor
                  · rw [h₀lo]
                  · exact le_trans hH hHh₀
                have h1 : intervalLE seed s0 := hmin s0 (List.mem_cons_self _ _) hco
                exact IsTrans.trans seed s0 y h1 hps0it
              · exfalso
                have hsep : sepI h₀ o :=
                  (List.pairwise_cons.mp (hM ▸ ih2)).1 o hoM'
                have h1 := hcont.1
                have h2 := hcont.2
                omega
            · exact hmin y (List.mem_cons_of_mem _ hy'') hcont
    · -- the candidate starts a new accumulator
      rw [mergeLoop_cons_push s0 it H R rest hcase]
      have hp'' : List.Pairwise intervalLE (it :: rest) := (List.pairwise_cons.mp hp).2
      obtain ⟨ihp1, ihp2, ihp3, _, ihp5⟩ :=
        ih it it.hi it.raw_end hp'' hwf_it (le_refl _) hwfl'
      have hHlt : H < it.lo := by omega
      refine ⟨?_, ?_, ?_, ?_, ?_⟩
      · intro o ho
        rcases List.mem_cons.mp ho with rfl | ho'
        · exact ⟨le_refl _, le_trans hwf0 hH⟩
        · obtain ⟨hit, hwo⟩ := ihp1 o ho'
          exact ⟨le_trans hlos0it hit, hwo⟩
      · refine List.pairwise_cons.mpr ⟨?_, ihp2⟩
        intro o ho
        have := (ihp1 o ho).1
        show H < o.lo
        omega
      · intro x hx
        rcases List.mem_cons.mp hx with rfl | hx'
        · exact ⟨_, List.mem_cons_self _ _, le_refl _, hH⟩
        · obtain ⟨o, ho, hc⟩ := ihp3 x hx'
          exact ⟨o, List.mem_cons_of_mem _ ho, hc⟩
      · exact ⟨_, _, rfl, rfl, rfl, rfl, rfl, le_refl _⟩
      · intro o ho
        rcases List.mem_cons.mp ho with rfl | ho'
        · refine ⟨s0, List.mem_cons_self _ _, rfl, hH, rfl, rfl, rfl, ?_⟩
          intro y hy _
          rcases List.mem_cons.mp hy with rfl | hy'
          · exact intervalLE_refl y
          · exact (List.pairwise_cons.mp hp).1 y hy'
        · obtain ⟨seed, hseedmem, hslo, hshi, hsrs, hspn, hsmt, hmin⟩ := ihp5 o ho'
          refine ⟨seed, List.mem_cons_of_mem _ hseedmem, hslo, hshi, hsrs, hspn, hsmt, ?_⟩
          intro y hy hcont
          rcases List.mem_cons.mp hy with rfl | hy'
          · exfalso
            have hit := (ihp1 o ho').1
            have h1 := hcont.1
            have h2 := hcont.2
            omega
          · exact hmin y hy' hcont

theorem sortIntervals_perm (items : List Interval) :
    List.Perm (sortIntervals items) items :=
  List.perm_insertionSort intervalLE items

theorem sortIntervals_sorted (items : List Interval) :
    List.Pairwise intervalLE (sortIntervals items) :=
  List.sorted_insertionSort intervalLE items

/-- `mergeIntervals` invariants, transported from the merge walk. -/
theorem mergeIntervals_spec (items : List Interval)
    (hwf : ∀ x ∈ items, x.lo ≤ x.hi) :
    (∀ o ∈ mergeIntervals items, o.lo ≤ o.hi) ∧
    List.Pairwise sepI (mergeIntervals items) ∧
    (∀ x ∈ items, ∃ o ∈ mergeIntervals items, contI o x) ∧
    (∀ o ∈ mergeIntervals items,
        ∃ seed ∈ items, o.lo = seed.lo ∧ seed.hi ≤ o.hi ∧
          o.raw_start = seed.raw_start ∧ o.pattern_name = seed.pattern_name ∧
          o.match_text = seed.match_text ∧
          ∀ y ∈ items, contI o y → intervalLE seed y) := by
  rcases hs : sortIntervals items with _ | ⟨f, r⟩
  · have hitems : items = [] := by
      have hperm := sortIntervals_perm items
      rw [hs] at hperm
      exact hperm.symm.eq_nil
    subst hitems
    have hnil : mergeIntervals ([] : List Interval) = [] := rfl
    rw [hnil]
    simp
  · have hmem : ∀ x, x ∈ items ↔ x ∈ f :: r := by
      intro x
      rw [← hs]
      exact ((sortIntervals_perm items).mem_iff).symm
    have hsorted : List.Pairwise intervalLE (f :: r) := by
      rw [← hs]
      exact sortIntervals_sorted items
    have hwf' : ∀ x ∈ f :: r, x.lo ≤ x.hi := fun x hx => hwf x ((hmem x).mpr hx)
    have hwf_f : f.lo ≤ f.hi := hwf' f (List.mem_cons_self f r)
    have hwf_r : ∀ x ∈ r, x.lo ≤ x.hi := fun x hx => hwf' x (List.mem_cons_of_mem f hx)
    have hmerge : mergeIntervals items = mergeLoop f r := by
      rw [mergeIntervals, hs]
    have heta : (⟨f.lo, f.hi, f.raw_start, f.raw_end, f.pattern_name,
        f.match_text⟩ : Interval) = f := rfl
    obtain ⟨m1, m2, m3, _, m5⟩ :=
      mergeLoop_spec r f f.hi f.raw_end hsorted hwf_f (le_refl _) hwf_r
    rw [heta] at m1 m2 m3 m5
    rw [hmerge]
    refine ⟨fun o ho => (m1 o ho).2, m2, ?_, ?_⟩
    · intro x hx
      exact m3 x ((hmem x).mp hx)
    · intro o ho
      obtain ⟨seed, hseedmem, h1, h2, h3, h4, h5, hmin⟩ := m5 o ho
      exact ⟨seed, (hmem seed).mpr hseedmem, h1, h2, h3, h4, h5,
        fun y hy hc => hmin y ((hmem y).mp hy) hc⟩

/-- Among pairwise-separated intervals, a nonempty sentence range is
contained in exactly one entry as soon as it is contained in some entry. -/
theorem countP_contI_eq_one :
    ∀ (M : List Interval), List.Pairwise sepI M →
      ∀ x : Interval, x.lo ≤ x.hi → (∃ o ∈ M, contI o x) →
        M.countP (fun o => decide (contI o x)) = 1
  | [], _, x, _, hex => by
    obtain ⟨o, ho, _⟩ := hex
    exact absurd ho (List.not_mem_nil o)
  | o :: os, hsep, x, hx, hex => by
    obtain ⟨hsep1, hsep2⟩ := List.pairwise_cons.mp hsep
    rw [List.countP_cons]
    by_cases hc : contI o x
    · have hz : os.countP (fun o' => decide (contI o' x)) = 0 := by
        rw [List.countP_eq_zero]
        intro o' ho'
        have hso := hsep1 o' ho'
        simp only [decide_eq_true_eq]
        intro hc'
        have h1 := hc.2
        have h2 := hc'.1
        omega
      rw [hz, if_pos (decide_eq_true hc)]
    · obtain ⟨o', ho', hc'⟩ := hex
      rcases List.mem_cons.mp ho' with rfl | ho''
      · exact absurd hc' hc
      · have hrec := countP_contI_eq_one os hsep2 x hx ⟨o', ho'', hc'⟩
        rw [hrec, if_neg (by simp [hc])]

/-- C5: merged intervals have pairwise non-overlapping sentence ranges,
every (well-formed) input candidate's sentence range is contained in
exactly one output entry's range, and the walk joins a candidate into the
current accumulator exactly when its starting sentence index is ≤ the
accumulator's ending sentence index. -/
theorem c5_merge_intervals :
    (∀ items : List Interval, (∀ x ∈ items, x.lo ≤ x.hi) →
      List.Pairwise
        (fun a b => ∀ k, ¬(a.lo ≤ k ∧ k ≤ a.hi ∧ b.lo ≤ k ∧ k ≤ b.hi))
        (mergeIntervals items) ∧
      (∀ x ∈ items,
        (mergeIntervals items).countP (fun o => decide (contI o x)) = 1)) ∧
    (∀ (cur it : Interval) (rest : List Interval),
      mergeLoop cur (it :: rest) =
        if it.lo ≤ cur.hi then mergeLoop (extendInterval cur it) rest
        else cur :: mergeLoop it rest) := by
  constructor
  · intro items hwf
    obtain ⟨m1, m2, m3, _⟩ := mergeIntervals_spec items hwf
    constructor
    · refine m2.imp ?_
      intro a b hab k
      intro ⟨_, h2, h3, _⟩
      omega
    · intro x hx
      exact countP_contI_eq_one (mergeIntervals items) m2 x (hwf x hx) (m3 x hx)
  · intro cur it rest
    rw [mergeLoop]

/-- Witness for C5 on a concrete candidate list with one overlapping pair
and one separate candidate. -/
theorem c5_merge_intervals_witness :
    (∀ x ∈ [(⟨0, 1, 0, 5, "S1_p", ['x']⟩ : Interval),
             ⟨1, 2, 4, 9, "S1_q", ['y']⟩, ⟨5, 6, 20, 22, "S2_r", ['z']⟩],
        x.lo ≤ x.hi) ∧
    (List.Pairwise
        (fun a b => ∀ k, ¬(a.lo ≤ k ∧ k ≤ a.hi ∧ b.lo ≤ k ∧ k ≤ b.hi))
        (mergeIntervals [⟨0, 1, 0, 5, "S1_p", ['x']⟩,
          ⟨1, 2, 4, 9, "S1_q", ['y']⟩, ⟨5, 6, 20, 22, "S2_r", ['z']⟩]) ∧
      (∀ x ∈ [(⟨0, 1, 0, 5, "S1_p", ['x']⟩ : Interval),
              ⟨1, 2, 4, 9, "S1_q", ['y']⟩, ⟨5, 6, 20, 22, "S2_r", ['z']⟩],
        (mergeIntervals [⟨0, 1, 0, 5, "S1_p", ['x']⟩,
          ⟨1, 2, 4, 9, "S1_q", ['y']⟩,
          ⟨5, 6, 20, 22, "S2_r", ['z']⟩]).countP
            (fun o => decide (contI o x)) = 1)) :=
  ⟨by decide, c5_merge_intervals.1 _ (by decide)⟩

/-- C6: each produced `ContrastMatch` takes its `sentence` from the full
text of the merged interval's covered sentence-span block (trimmed), not
from the regex match substring, and its `pattern_name` from the candidate
that seeded the merge — a candidate of the merged group that is minimal
in the sort order among all candidates the merged range contains. -/
theorem c6_contrast_match_fields :
    ∀ (tNorm : List Char) (spans : List (ℕ × ℕ)) (candidates : List Interval),
      (∀ x ∈ candidates, x.lo ≤ x.hi) →
      ∀ m ∈ contrastFromCandidates tNorm spans candidates,
        ∃ o ∈ mergeIntervals candidates,
          m.sentence = jsTrim (jsSubstring tNorm (spans.getD o.lo (0, 0)).1
            (spans.getD o.hi (0, 0)).2) ∧
          m.pattern_name = o.pattern_name ∧
          m.sentence_count = o.hi - o.lo + 1 ∧
          ∃ seed ∈ candidates, o.pattern_name = seed.pattern_name ∧ o.lo = seed.lo ∧
            o.raw_start = seed.raw_start ∧ seed.hi ≤ o.hi ∧
            ∀ y ∈ candidates, contI o y → intervalLE seed y := by
  intro tNorm spans candidates hwf m hm
  obtain ⟨o, ho, hmo⟩ := List.mem_map.mp hm
  obtain ⟨_, _, _, m5⟩ := mergeIntervals_spec candidates hwf
  obtain ⟨seed, hseedmem, h1, h2, h3, h4, _, hmin⟩ := m5 o ho
  subst hmo
  exact ⟨o, ho, rfl, rfl, rfl, seed, hseedmem, h4, h1, h3, h2, hmin⟩

/-- Witness for C6 on a two-sentence text with one candidate. -/
theorem c6_contrast_match_fields_witness :
    (∀ x ∈ [(⟨0, 0, 0, 2, "S1_p", ['a', 'b']⟩ : Interval)], x.lo ≤ x.hi) ∧
    (∀ m ∈ contrastFromCandidates ['a', 'b', '.', ' ', 'c', 'd', '.']
        (sentenceSpans ['a', 'b', '.', ' ', 'c', 'd', '.'])
        [⟨0, 0, 0, 2, "S1_p", ['a', 'b']⟩],
      ∃ o ∈ mergeIntervals [(⟨0, 0, 0, 2, "S1_p", ['a', 'b']⟩ : Interval)],
        m.sentence = jsTrim (jsSubstring ['a', 'b', '.', ' ', 'c', 'd', '.']
          ((sentenceSpans ['a', 'b', '.', ' ', 'c', 'd', '.']).getD o.lo (0, 0)).1
          ((sentenceSpans ['a', 'b', '.', ' ', 'c', 'd', '.']).getD o.hi (0, 0)).2) ∧
        m.pattern_name = o.pattern_name ∧
        m.sentence_count = o.hi - o.lo + 1 ∧
        ∃ seed ∈ [(⟨0, 0, 0, 2, "S1_p", ['a', 'b']⟩ : Interval)],
          o.pattern_name = seed.pattern_name ∧ o.lo = seed.lo ∧
          o.raw_start = seed.raw_start ∧ seed.hi ≤ o.hi ∧
          ∀ y ∈ [(⟨0, 0, 0, 2, "S1_p", ['a', 'b']⟩ : Interval)],
            contI o y → intervalLE seed y) :=
  ⟨by decide,
   c6_contrast_match_fields ['a', 'b', '.', ' ', 'c', 'd', '.']
     (sentenceSpans ['a', 'b', '.', ' ', 'c', 'd', '.'])
     [⟨0, 0, 0, 2, "S1_p", ['a', 'b']⟩] (by decide)⟩

/-! ### Degradation of the contrast detector (claim C8) -/

theorem coveredSentenceRange_nil (s e : ℕ) : coveredSentenceRange [] s e = none := by
  simp [coveredSentenceRange]

theorem collectStage1_none (tNorm : List Char) (spans : List (ℕ × ℕ))
    (ps : List (String × List (ℕ × ℕ))) (pfx : String)
    (h : ∀ p ∈ ps, ∀ m ∈ p.2, coveredSentenceRange spans m.1 (m.1 + m.2) = none) :
    collectStage1Candidates tNorm spans ps pfx = [] := by
  rw [collectStage1Candidates]
  induction ps with
  | nil => rfl
  | cons p ps ih =>
    rw [List.flatMap_cons]
    have h1 : ∀ m ∈ p.2, coveredSentenceRange spans m.1 (m.1 + m.2) = none :=
      h p (List.mem_cons_self p ps)
    have h2 : List.flatMap ps _ = [] := ih fun p' hp' => h p' (List.mem_cons_of_mem p hp')
    rw [h2, List.append_nil, List.filterMap_eq_nil_iff]
    intro m hm
    simp only [h1 m hm]

theorem collectStage2_none (tNorm : List Char) (spans : List (ℕ × ℕ))
    (ps : List (String × List (ℕ × ℕ))) (pieces : List StreamPiece) (pfx : String)
    (h : ∀ p ∈ ps, ∀ m ∈ p.2, ∀ rs re,
      mapStreamToRaw pieces m.1 (m.1 + m.2) = some (rs, re) →
      coveredSentenceRange spans rs re = none) :
    collectStage2Candidates tNorm spans ps pieces pfx = [] := by
  rw [collectStage2Candidates]
  induction ps with
  | nil => rfl
  | cons p ps ih =>
    rw [List.flatMap_cons]
    have h1 : ∀ m ∈ p.2, ∀ rs re,
        mapStreamToRaw pieces m.1 (m.1 + m.2) = some (rs, re) →
        coveredSentenceRange spans rs re = none :=
      h p (List.mem_cons_self p ps)
    have h2 : List.flatMap ps _ = [] := ih fun p' hp' => h p' (List.mem_cons_of_mem p hp')
    rw [h2, List.append_nil, List.filterMap_eq_nil_iff]
    intro m hm
    rcases hmap : mapStreamToRaw pieces m.1 (m.1 + m.2) with _ | ⟨rs, re⟩
    · simp only [hmap]
    · simp only [hmap, h1 m hm rs re hmap]

/-- C8: the contrast detector degrades to "no evidence found" instead of
failing: (i) on the empty string it returns zero matches, zero hits and
rate 0; (ii) whenever every Stage-1 match misses the sentence spans and
every mappable Stage-2 match does too, the result is zero matches with
rate 0; (iii) a Stage-2 match whose stream offsets cannot be mapped back
to raw offsets is discarded silently — deleting it from the match list
leaves the collected candidates unchanged. -/
theorem c8_contrast_degrades :
    (∀ (s1 s2 : List (String × List (ℕ × ℕ))) (pieces : List StreamPiece),
      scoreContrast [] s1 s2 pieces = ⟨0, 0, 0, []⟩) ∧
    (∀ (text : List Char) (s1 s2 : List (String × List (ℕ × ℕ)))
        (pieces : List StreamPiece),
      (∀ p ∈ s1, ∀ m ∈ p.2,
        coveredSentenceRange (sentenceSpans (normalizeText text)) m.1 (m.1 + m.2) = none) →
      (∀ p ∈ s2, ∀ m ∈ p.2, ∀ rs re,
        mapStreamToRaw pieces m.1 (m.1 + m.2) = some (rs, re) →
        coveredSentenceRange (sentenceSpans (normalizeText text)) rs re = none) →
      (scoreContrast text s1 s2 pieces).hits = 0 ∧
      (scoreContrast text s1 s2 pieces).rate_per_1k = 0 ∧
      (scoreContrast text s1 s2 pieces).matchesList = []) ∧
    (∀ (tNorm : List Char) (spans : List (ℕ × ℕ)) (pname : String)
        (pre post : List (ℕ × ℕ)) (pieces : List StreamPiece) (pfx : String)
        (u : ℕ × ℕ),
      mapStreamToRaw pieces u.1 (u.1 + u.2) = none →
      collectStage2Candidates tNorm spans [(pname, pre ++ u :: post)] pieces pfx =
        collectStage2Candidates tNorm spans [(pname, pre ++ post)] pieces pfx) := by
  have hkey : ∀ (text : List Char) (s1 s2 : List (String × List (ℕ × ℕ)))
      (pieces : List StreamPiece),
      (∀ p ∈ s1, ∀ m ∈ p.2,
        coveredSentenceRange (sentenceSpans (normalizeText text)) m.1 (m.1 + m.2) = none) →
      (∀ p ∈ s2, ∀ m ∈ p.2, ∀ rs re,
        mapStreamToRaw pieces m.1 (m.1 + m.2) = some (rs, re) →
        coveredSentenceRange (sentenceSpans (normalizeText text)) rs re = none) →
      extractContrastMatches text s1 s2 pieces = [] := by
    intro text s1 s2 pieces h1 h2
    rw [extractContrastMatches]
    rw [collectStage1_none _ _ _ _ h1, collectStage2_none _ _ _ _ _ h2]
    rfl
  refine ⟨?_, ?_, ?_⟩
  · intro s1 s2 pieces
    have hz : extractContrastMatches [] s1 s2 pieces = [] := by
      apply hkey
      · intro p _ m _
        exact coveredSentenceRange_nil _ _
      · intro p _ m _ rs re _
        exact coveredSentenceRange_nil _ _
    rw [scoreContrast, hz]
    rfl
  · intro text s1 s2 pieces h1 h2
    have hz := hkey text s1 s2 pieces h1 h2
    rw [scoreContrast, hz]
    refine ⟨rfl, ?_, rfl⟩
    show (if 0 < text.length then (([] : List ContrastMatch).length : ℚ) * 1000 / (text.length : ℚ) else 0) = 0
    split <;> simp
  · intro tNorm spans pname pre post pieces pfx u hmap
    simp only [collectStage2Candidates, List.flatMap_cons, List.flatMap_nil,
      List.filterMap_append, List.filterMap_cons, hmap]

/-- Witness for C8 part (ii) at a one-character text with an out-of-range
Stage-1 match, and part (iii) at an empty piece table. -/
theorem c8_contrast_degrades_witness :
    ((∀ p ∈ [("p", [((5 : ℕ), (2 : ℕ))])], ∀ m ∈ p.2,
      coveredSentenceRange (sentenceSpans (normalizeText ['a'])) m.1 (m.1 + m.2) = none) ∧
     (scoreContrast ['a'] [("p", [(5, 2)])] [] []).hits = 0 ∧
     (scoreContrast ['a'] [("p", [(5, 2)])] [] []).rate_per_1k = 0 ∧
     (scoreContrast ['a'] [("p", [(5, 2)])] [] []).matchesList = []) ∧
    (mapStreamToRaw [] 0 (0 + 1) = none ∧
     collectStage2Candidates ['a'] [(0, 1)] [("q", [(0, 1)] ++ (0, 1) :: [])] [] "S2_" =
       collectStage2Candidates ['a'] [(0, 1)] [("q", [(0, 1)] ++ [])] [] "S2_") := by
  constructor
  · refine ⟨by decide, ?_⟩
    exact c8_contrast_degrades.2.1 ['a'] [("p", [(5, 2)])] [] [] (by decide)
      (by intro p hp; simp at hp)
  · refine ⟨by decide, ?_⟩
    exact c8_contrast_degrades.2.2 ['a'] [(0, 1)] "q" [(0, 1)] [] [] "S2_" (0, 1)
      (by decide)

/-! ### POS-substituted stream construction (claim C9,
`tagStreamWithOffsets` in contrastDetector.ts / getPosReplacement in
contrastDetectorHelpers.ts) -/

inductive PosType where
  | verb
  | noun
  | adj
  | adv
  | all
deriving DecidableEq

def VERB_TAGS : List String := ["VB", "VBD", "VBG", "VBN", "VBP", "VBZ"]

def NOUN_TAGS : List String := ["NN", "NNS", "NNP", "NNPS"]

def ADJ_TAGS : List String := ["JJ", "JJR", "JJS"]

def ADV_TAGS : List String := ["RB", "RBR", "RBS"]

/-- `getPosReplacement` (contrastDetectorHelpers.ts); an absent/empty tag
is falsy in JS, hence the `""` guard. -/
def getPosReplacement (posTag : String) (posType : PosType) : Option (List Char) :=
  if posTag = "" then none
  else
    match posType with
    | .verb => if VERB_TAGS.contains posTag then some "VERB".toList else none
    | .noun => if NOUN_TAGS.contains posTag then some "NOUN".toList else none
    | .adj => if ADJ_TAGS.contains posTag then some "ADJ".toList else none
    | .adv => if ADV_TAGS.contains posTag then some "ADV".toList else none
    | .all =>
      if VERB_TAGS.contains posTag then some "VERB".toList
      else if NOUN_TAGS.contains posTag then some "NOUN".toList
      else if ADJ_TAGS.contains posTag then some "ADJ".toList
      else if ADV_TAGS.contains posTag then some "ADV".toList
      else none

/-- One token of the external POS tagger's output: surface value and tag
(the `pos` field of a wink-pos-tagger token). -/
structure TaggedToken where
  value : List Char
  pos : String
deriving DecidableEq

/-- `text.indexOf(pat, start)`, as an `Option` (`none` for `-1`):
the scan over the remaining characters. -/
def indexOfFromAux (pat : List Char) : List Char → ℕ → Option ℕ
  | [], k => if pat.isEmpty then some k else none
  | l@(_ :: t), k => if pat.isPrefixOf l then some k else indexOfFromAux pat t (k + 1)

def indexOfFrom (text pat : List Char) (start : ℕ) : Option ℕ :=
  indexOfFromAux pat (text.drop start) start

/-- The loop body of `tagStreamWithOffsets`: walks the tagger's tokens,
re-locating each `value` in the text by forward scan from `rawPos`,
emitting the POS replacement (or the literal token), the inter-token
whitespace (or an inferred single space with an empty raw range), and one
`StreamPiece` per emitted unit; a token that cannot be located is skipped
after advancing `rawPos` by its length. -/
def tagStreamAux (text : List Char) (pt : PosType) :
    List TaggedToken → ℕ → ℕ → List Char × List StreamPiece
  | [], _, _ => ([], [])
  | tok :: rest, streamPos, rawPos =>
    match indexOfFrom text tok.value rawPos with
    | none => tagStreamAux text pt rest streamPos (rawPos + tok.value.length)
    | some tokenStart =>
      let out := (getPosReplacement tok.pos pt).getD tok.value
      let piece : StreamPiece :=
        ⟨streamPos, streamPos + out.length, tokenStart, tokenStart + tok.value.length⟩
      let streamPos2 := streamPos + out.length
      let rawPos2 := tokenStart + tok.value.length
      match rest with
      | [] => (out, [piece])
      | next :: _ =>
        match indexOfFrom text next.value rawPos2 with
        | some nextPos =>
          if rawPos2 < nextPos then
            let ws := jsSubstring text rawPos2 nextPos
            let r := tagStreamAux text pt rest (streamPos2 + ws.length) nextPos
            (out ++ ws ++ r.1,
             piece :: ⟨streamPos2, streamPos2 + ws.length, rawPos2, nextPos⟩ :: r.2)
          else
            let r := tagStreamAux text pt rest (streamPos2 + 1) rawPos2
            (out ++ ' ' :: r.1,
             piece :: ⟨streamPos2, streamPos2 + 1, rawPos2, rawPos2⟩ :: r.2)
        | none =>
          let r := tagStreamAux text pt rest (streamPos2 + 1) rawPos2
          (out ++ ' ' :: r.1,
           piece :: ⟨streamPos2, streamPos2 + 1, rawPos2, rawPos2⟩ :: r.2)

/-- `tagStreamWithOffsets` (contrastDetector.ts), parametrised by the
tagger's token list. -/
def tagStreamWithOffsets (text : List Char) (tagged : List TaggedToken)
    (pt : PosType) : List Char × List StreamPiece :=
  tagStreamAux text pt tagged 0 0

theorem indexOfFromAux_ge (pat : List Char) :
    ∀ (l : List Char) (k i : ℕ), indexOfFromAux pat l k = some i → k ≤ i
  | [], k, i, h => by
    rw [indexOfFromAux] at h
    split at h
    · exact le_of_eq (Option.some_inj.mp h)
    · exact absurd h (by simp)
  | _ :: t, k, i, h => by
    rw [indexOfFromAux] at h
    split at h
    · exact le_of_eq (Option.some_inj.mp h)
    · exact le_trans (by omega) (indexOfFromAux_ge pat t (k + 1) i h)

theorem indexOfFrom_ge {text pat : List Char} {start i : ℕ}
    (h : indexOfFrom text pat start = some i) : start ≤ i :=
  indexOfFromAux_ge pat (text.drop start) start i h

/-- The invariant step for a token piece followed by a spacer piece
(inter-token whitespace or the inferred single space) and the recursive
tail. -/
theorem spacer_chain_inv (ps : List StreamPiece)
    (sp rp tokenStart vlen outL wsl wEnd recRaw : ℕ)
    (hts : rp ≤ tokenStart) (hre : tokenStart + vlen ≤ wEnd) (hwr : wEnd ≤ recRaw)
    (hA : ∀ p ∈ ps, sp + outL + wsl ≤ p.streamStart ∧ p.streamStart ≤ p.streamEnd ∧
      recRaw ≤ p.rawStart ∧ p.rawStart ≤ p.rawEnd)
    (hB : List.Chain' (fun p q => p.streamEnd = q.streamStart) ps)
    (hC : List.Chain' (fun p q => p.rawEnd ≤ q.rawStart) ps)
    (hD : ∀ p ∈ ps.head?, p.streamStart = sp + outL + wsl) :
    (∀ p ∈ (⟨sp, sp + outL, tokenStart, tokenStart + vlen⟩ : StreamPiece) ::
        (⟨sp + outL, sp + outL + wsl, tokenStart + vlen, wEnd⟩ : StreamPiece) :: ps,
      sp ≤ p.streamStart ∧ p.streamStart ≤ p.streamEnd ∧
      rp ≤ p.rawStart ∧ p.rawStart ≤ p.rawEnd) ∧
    List.Chain' (fun p q => p.streamEnd = q.streamStart)
      ((⟨sp, sp + outL, tokenStart, tokenStart + vlen⟩ : StreamPiece) ::
        (⟨sp + outL, sp + outL + wsl, tokenStart + vlen, wEnd⟩ : StreamPiece) :: ps) ∧
    List.Chain' (fun p q => p.rawEnd ≤ q.rawStart)
      ((⟨sp, sp + outL, tokenStart, tokenStart + vlen⟩ : StreamPiece) ::
        (⟨sp + outL, sp + outL + wsl, tokenStart + vlen, wEnd⟩ : StreamPiece) :: ps) ∧
    (∀ p ∈ ((⟨sp, sp + outL, tokenStart, tokenStart + vlen⟩ : StreamPiece) ::
        (⟨sp + outL, sp + outL + wsl, tokenStart + vlen, wEnd⟩ : StreamPiece) ::
        ps).head?, p.streamStart = sp) := by
  refine ⟨?_, ?_, ?_, ?_⟩
  · intro p hp
    rcases List.mem_cons.mp hp with rfl | hp'
    · refine ⟨?_, ?_, ?_, ?_⟩
      · show sp ≤ sp
        exact le_refl _
      · show sp ≤ sp + outL
        omega
      · show rp ≤ tokenStart
        exact hts
      · show tokenStart ≤ tokenStart + vlen
        omega
    · rcases List.mem_cons.mp hp' with rfl | hp''
      · refine ⟨?_, ?_, ?_, ?_⟩
        · show sp ≤ sp + outL
          omega
        · show sp + outL ≤ sp + outL + wsl
          omega
        · show rp ≤ tokenStart + vlen
          omega
        · show tokenStart + vlen ≤ wEnd
          exact hre
      · obtain ⟨h1, h2, h3, h4⟩ := hA p hp''
        exact ⟨by omega, h2, by omega, h4⟩
  · refine List.chain'_cons.mpr ⟨?_, List.chain'_cons'.mpr ⟨?_, hB⟩⟩
    · show sp + outL = sp + outL
      rfl
    · intro q hq
      have hD' := hD q hq
      show sp + outL + wsl = q.streamStart
      omega
  · refine List.chain'_cons.mpr ⟨?_, List.chain'_cons'.mpr ⟨?_, hC⟩⟩
    · show tokenStart + vlen ≤ tokenStart + vlen
      exact le_refl _
    · intro q hq
      have hq' := (hA q (List.mem_of_mem_head? hq)).2.2.1
      show wEnd ≤ q.rawStart
      omega
  · intro p hp
    rw [List.head?_cons, Option.mem_some_iff] at hp
    rw [← hp]

/-- The stream pieces built by `tagStreamWithOffsets` are contiguous in
stream space starting at the running position, monotone in raw space, and
each piece has well-ordered endpoints. -/
theorem tagStreamAux_pieces_inv (text : List Char) (pt : PosType) :
    ∀ (toks : List TaggedToken) (sp rp : ℕ),
      (∀ p ∈ (tagStreamAux text pt toks sp rp).2,
        sp ≤ p.streamStart ∧ p.streamStart ≤ p.streamEnd ∧
        rp ≤ p.rawStart ∧ p.rawStart ≤ p.rawEnd) ∧
      List.Chain' (fun p q => p.streamEnd = q.streamStart)
        (tagStreamAux text pt toks sp rp).2 ∧
      List.Chain' (fun p q => p.rawEnd ≤ q.rawStart)
        (tagStreamAux text pt toks sp rp).2 ∧
      (∀ p ∈ ((tagStreamAux text pt toks sp rp).2).head?, p.streamStart = sp) := by
  intro toks
  induction toks with
  | nil =>
    intro sp rp
    simp [tagStreamAux]
  | cons tok rest ih =>
    intro sp rp
    rcases hidx : indexOfFrom text tok.value rp with _ | ⟨tokenStart⟩
    · have heq : tagStreamAux text pt (tok :: rest) sp rp =
          tagStreamAux text pt rest sp (rp + tok.value.length) := by
        rw [tagStreamAux, hidx]
      rw [heq]
      obtain ⟨ihA, ihB, ihC, ihD⟩ := ih sp (rp + tok.value.length)
      refine ⟨?_, ihB, ihC, ihD⟩
      intro p hp
      obtain ⟨h1, h2, h3, h4⟩ := ihA p hp
      exact ⟨h1, h2, by omega, h4⟩
    · have hts : rp ≤ tokenStart := indexOfFrom_ge hidx
      rcases rest with _ | ⟨next, rest'⟩
      · have heq : (tagStreamAux text pt [tok] sp rp).2 =
            [⟨sp, sp + ((getPosReplacement tok.pos pt).getD tok.value).length,
              tokenStart, tokenStart + tok.value.length⟩] := by
          simp only [tagStreamAux, hidx]
        rw [heq]
        refine ⟨?_, List.chain'_singleton _, List.chain'_singleton _, ?_⟩
        · intro p hp
          rw [List.mem_singleton] at hp
          rw [hp]
          refine ⟨le_refl _, ?_, hts, ?_⟩
          · show sp ≤ sp + _
            omega
          · show tokenStart ≤ tokenStart + _
            omega
        · intro p hp
          rw [List.head?_cons, Option.mem_some_iff] at hp
          rw [← hp]
      · rcases hidx2 : indexOfFrom text next.value (tokenStart + tok.value.length)
          with _ | ⟨nextPos⟩
        · have heq : (tagStreamAux text pt (tok :: next :: rest') sp rp).2 =
              (⟨sp, sp + ((getPosReplacement tok.pos pt).getD tok.value).length,
                tokenStart, tokenStart + tok.value.length⟩ : StreamPiece) ::
              (⟨sp + ((getPosReplacement tok.pos pt).getD tok.value).length,
                sp + ((getPosReplacement tok.pos pt).getD tok.value).length + 1,
                tokenStart + tok.value.length, tokenStart + tok.value.length⟩ : StreamPiece) ::
              (tagStreamAux text pt (next :: rest')
                (sp + ((getPosReplacement tok.pos pt).getD tok.value).length + 1)
                (tokenStart + tok.value.length)).2 := by
            simp only [tagStreamAux, hidx, hidx2]
          rw [heq]
          obtain ⟨ihA, ihB, ihC, ihD⟩ :=
            ih (sp + ((getPosReplacement tok.pos pt).getD tok.value).length + 1)
              (tokenStart + tok.value.length)
          exact spacer_chain_inv _ sp rp tokenStart tok.value.length _ 1 _ _
            hts (le_refl _) (le_refl _) ihA ihB ihC ihD
        · by_cases hlt : tokenStart + tok.value.length < nextPos
          · have heq : (tagStreamAux text pt (tok :: next :: rest') sp rp).2 =
                (⟨sp, sp + ((getPosReplacement tok.pos pt).getD tok.value).length,
                  tokenStart, tokenStart + tok.value.length⟩ : StreamPiece) ::
                (⟨sp + ((getPosReplacement tok.pos pt).getD tok.value).length,
                  sp + ((getPosReplacement tok.pos pt).getD tok.value).length +
                    (jsSubstring text (tokenStart + tok.value.length) nextPos).length,
                  tokenStart + tok.value.length, nextPos⟩ : StreamPiece) ::
                (tagStreamAux text pt (next :: rest')
                  (sp + ((getPosReplacement tok.pos pt).getD tok.value).length +
                    (jsSubstring text (tokenStart + tok.value.length) nextPos).length)
                  nextPos).2 := by
              simp only [tagStreamAux, hidx, hidx2, if_pos hlt]
            rw [heq]
            obtain ⟨ihA, ihB, ihC, ihD⟩ :=
              ih (sp + ((getPosReplacement tok.pos pt).getD tok.value).length +
                  (jsSubstring text (tokenStart + tok.value.length) nextPos).length)
                nextPos
            exact spacer_chain_inv _ sp rp tokenStart tok.value.length _ _ nextPos nextPos
              hts (le_of_lt hlt) (le_refl _) ihA ihB ihC ihD
          · have heq : (tagStreamAux text pt (tok :: next :: rest') sp rp).2 =
                (⟨sp, sp + ((getPosReplacement tok.pos pt).getD tok.value).length,
                  tokenStart, tokenStart + tok.value.length⟩ : StreamPiece) ::
                (⟨sp + ((getPosReplacement tok.pos pt).getD tok.value).length,
                  sp + ((getPosReplacement tok.pos pt).getD tok.value).length + 1,
                  tokenStart + tok.value.length, tokenStart + tok.value.length⟩ : StreamPiece) ::
                (tagStreamAux text pt (next :: rest')
                  (sp + ((getPosReplacement tok.pos pt).getD tok.value).length + 1)
                  (tokenStart + tok.value.length)).2 := by
              simp only [tagStreamAux, hidx, hidx2, if_neg hlt]
            rw [heq]
            obtain ⟨ihA, ihB, ihC, ihD⟩ :=
              ih (sp + ((getPosReplacement tok.pos pt).getD tok.value).length + 1)
                (tokenStart + tok.value.length)
            exact spacer_chain_inv _ sp rp tokenStart tok.value.length _ 1 _ _
              hts (le_refl _) (le_refl _) ihA ihB ihC ihD

theorem chain'_le_head {α : Type _} (f g : α → ℕ) :
    ∀ (l : List α) (c : ℕ), (∀ x ∈ l, f x ≤ g x) →
      List.Chain' (fun a b => g a ≤ f b) l →
      (∀ y ∈ l.head?, c ≤ f y) → ∀ y ∈ l, c ≤ f y
  | [], _, _, _, _ => by simp
  | x :: xs, c, hfg, hc, hh => by
    intro y hy
    rcases List.mem_cons.mp hy with rfl | hy'
    · exact hh y (by rw [List.head?_cons, Option.mem_some_iff])
    · obtain ⟨hhx, hcx⟩ := List.chain'_cons'.mp hc
      have hcf : c ≤ f x := hh x (by rw [List.head?_cons, Option.mem_some_iff])
      have hfx : f x ≤ g x := hfg x (List.mem_cons_self x xs)
      have hrec := chain'_le_head f g xs (g x)
        (fun z hz => hfg z (List.mem_cons_of_mem _ hz)) hcx hhx y hy'
      omega

theorem chain'_mono_pairwise {α : Type _} (f g : α → ℕ) :
    ∀ (l : List α), (∀ x ∈ l, f x ≤ g x) →
      List.Chain' (fun a b => g a ≤ f b) l →
      List.Pairwise (fun a b => g a ≤ f b) l
  | [], _, _ => List.Pairwise.nil
  | x :: xs, hfg, hc => by
    obtain ⟨hhx, hcx⟩ := List.chain'_cons'.mp hc
    refine List.Pairwise.cons ?_
      (chain'_mono_pairwise f g xs (fun z hz => hfg z (List.mem_cons_of_mem _ hz)) hcx)
    exact chain'_le_head f g xs (g x)
      (fun z hz => hfg z (List.mem_cons_of_mem _ hz)) hcx hhx

/-- C9 counterexample: on the text `" a"` with the tagger returning the
single token `a`, the leading space (raw offset 0) is covered by no
stream piece, so the pieces do not cover every character of the text. -/
theorem c9_stream_pieces_counterexample :
    ¬ (∀ k, k < ([' ', 'a'] : List Char).length →
        ∃ p ∈ (tagStreamWithOffsets [' ', 'a'] [⟨['a'], "DT"⟩] PosType.verb).2,
          p.rawStart ≤ k ∧ k < p.rawEnd) := by
  decide

/-- C9 (amended): the `StreamPiece` list is contiguous in stream space
(each piece starts where the previous one ends, the first at offset 0)
and no two pieces overlap in stream space or in raw space; but raw
coverage can have gaps — text before the first located token (or inside
a token the forward scan cannot locate) belongs to no piece. -/
theorem c9_stream_pieces_amended :
    ∀ (text : List Char) (tagged : List TaggedToken) (pt : PosType),
      (∀ p ∈ (tagStreamWithOffsets text tagged pt).2,
        p.streamStart ≤ p.streamEnd ∧ p.rawStart ≤ p.rawEnd) ∧
      List.Chain' (fun p q => p.streamEnd = q.streamStart)
        (tagStreamWithOffsets text tagged pt).2 ∧
      (∀ p ∈ ((tagStreamWithOffsets text tagged pt).2).head?, p.streamStart = 0) ∧
      List.Pairwise (fun p q =>
        (p.streamEnd ≤ q.streamStart ∨ q.streamEnd ≤ p.streamStart) ∧
        (p.rawEnd ≤ q.rawStart ∨ q.rawEnd ≤ p.rawStart))
        (tagStreamWithOffsets text tagged pt).2 := by
  intro text tagged pt
  obtain ⟨hA, hB, hC, hD⟩ := tagStreamAux_pieces_inv text pt tagged 0 0
  have hwfs : ∀ p ∈ (tagStreamWithOffsets text tagged pt).2,
      p.streamStart ≤ p.streamEnd := fun p hp => (hA p hp).2.1
  have hwfr : ∀ p ∈ (tagStreamWithOffsets text tagged pt).2,
      p.rawStart ≤ p.rawEnd := fun p hp => (hA p hp).2.2.2
  have hBle : List.Chain' (fun p q => p.streamEnd ≤ q.streamStart)
      (tagStreamWithOffsets text tagged pt).2 := hB.imp fun _ _ h => le_of_eq h
  have hpws : List.Pairwise (fun p q => p.streamEnd ≤ q.streamStart)
      (tagStreamWithOffsets text tagged pt).2 :=
    chain'_mono_pairwise StreamPiece.streamStart StreamPiece.streamEnd _ hwfs hBle
  have hpwr : List.Pairwise (fun p q => p.rawEnd ≤ q.rawStart)
      (tagStreamWithOffsets text tagged pt).2 :=
    chain'_mono_pairwise StreamPiece.rawStart StreamPiece.rawEnd _ hwfr hC
  refine ⟨fun p hp => ⟨hwfs p hp, hwfr p hp⟩, hB, hD, ?_⟩
  exact (hpws.and hpwr).imp fun h => ⟨Or.inl h.1, Or.inl h.2⟩

end Slop
